import Mathlib

/-!
Verification of the Image-Harvester core against its specification.

The Python sources under `src/image_harvester/` are shallowly embedded:
pure functions become Lean functions over `List Char` / `String` / `ℚ` / `Int`,
the SQLite tables become lists of row structures, and the effectful loops
(`ImageHarvesterPipeline.run`, `ImageDownloader.download`,
`_AdaptiveRateLimiter`) become explicit state-passing functions whose
nondeterministic inputs (HTTP outcomes, wall-clock times) are passed as
arguments.  Standard-library behaviour that the code relies on
(`urllib.parse.urlparse` path extraction, `urllib.parse.unquote` for ASCII
percent-escapes, `pathlib.Path.name`, `str.strip`) is modelled for the
ASCII inputs the naming layer manipulates.
-/

namespace ImageHarvester

/-! ## Generic `str` helpers (models of Python string primitives) -/

/-- Model of Python `str.rstrip`-style trailing trim on a character list. -/
def dropWhileEnd (p : Char → Bool) (l : List Char) : List Char :=
  (l.reverse.dropWhile p).reverse

/-- Model of Python `str.strip(chars)`: drop the characters satisfying `p`
from both ends. -/
def pyStrip (p : Char → Bool) (l : List Char) : List Char :=
  dropWhileEnd p (l.dropWhile p)

/-- The whitespace characters stripped by Python `str.strip()` (ASCII part). -/
def isPySpace (c : Char) : Bool :=
  c = ' ' || c = '\t' || c = '\n' || c = '\r' || c = '\x0b' || c = '\x0c'

/-! ## Model of `urllib.parse.urlparse(...).path`

`urlsplit` removes, in order: the scheme (a leading `alpha (alnum|+|-|.)* :`
prefix, lowercased), the authority (a leading `//` up to the next `/`,
`?` or `#`), the fragment (everything from the first `#`), and the query
(everything from the first `?`).  `urlparse` then additionally splits the
`params` component off the path — everything from the first `;` inside
the final `/`-separated segment — whenever the scheme is in
`uses_params`. -/

def isSchemeChar (c : Char) : Bool :=
  c.isAlpha || c.isDigit || c = '+' || c = '-' || c = '.'

/-- Split a leading URL scheme (`http:`, `https:`, ...): the lowercased
scheme (empty when absent, as `urlsplit` leaves `scheme = ''`) and the
remainder. -/
def splitScheme (l : List Char) : List Char × List Char :=
  match l with
  | [] => ([], [])
  | c :: rest =>
    if c.isAlpha then
      match rest.drop (rest.takeWhile isSchemeChar).length with
      | ':' :: tail => ((c :: rest.takeWhile isSchemeChar).map Char.toLower, tail)
      | _ => ([], l)
    else ([], l)

/-- The schemes for which `urlparse` splits a `params` component
(`urllib.parse.uses_params`, which includes the empty scheme). -/
def uses_params : List (List Char) :=
  ["", "ftp", "hdl", "prospero", "http", "imap", "https", "shttp", "rtsp",
   "rtspu", "sip", "sips", "mms", "sftp", "tel"].map String.toList

/-- `urllib.parse._splitparams` applied to a path: drop everything from
the first `;` of the final `/`-separated segment (when the path has a
`/`, the search starts at the last `/`; otherwise at the front). -/
def splitParamsPath (path : List Char) : List Char :=
  if '/' ∈ path then
    (path.reverse.drop (path.reverse.takeWhile (· ≠ '/')).length).reverse ++
      ((path.reverse.takeWhile (· ≠ '/')).reverse.takeWhile (· ≠ ';'))
  else path.takeWhile (· ≠ ';')

/-- Strip a leading `//authority` component, if present. -/
def dropAuthority (l : List Char) : List Char :=
  match l with
  | '/' :: '/' :: rest => rest.dropWhile (fun c => !(c = '/' || c = '?' || c = '#'))
  | _ => l

/-- Cut the list at the first occurrence of `c` (keeping the part before). -/
def cutAt (c : Char) (l : List Char) : List Char :=
  l.takeWhile (· ≠ c)

/-- The `path` component of `urlparse`: scheme, authority, fragment and
query removed, then the `params` component split off when the scheme
uses params. -/
def urlPath (l : List Char) : List Char :=
  if (splitScheme l).1 ∈ uses_params then
    splitParamsPath (cutAt '?' (cutAt '#' (dropAuthority (splitScheme l).2)))
  else
    cutAt '?' (cutAt '#' (dropAuthority (splitScheme l).2))

/-- Model of Python `str.split(sep)` on character lists: the list of
(possibly empty) chunks between occurrences of `c`.  Always nonempty. -/
def splitChar (c : Char) : List Char → List (List Char)
  | [] => [[]]
  | x :: rest =>
    if x = c then [] :: splitChar c rest
    else
      match splitChar c rest with
      | s :: tl => (x :: s) :: tl
      | [] => [[x]]

/-! ## Model of `pathlib.PurePosixPath(...).name`

`pathlib` splits on `/`, discards empty and `"."` components, and `.name`
is the last remaining component (or the empty string). -/

def pathName (l : List Char) : List Char :=
  ((splitChar '/' l).filter (fun p => !(p.isEmpty || p = ['.']))).getLastD []

/-! ## Model of `urllib.parse.unquote` for ASCII percent-escapes

A valid `%XX` pair is decoded to the character with that code; an invalid
escape is left verbatim (as `unquote` does). -/

def hexVal (c : Char) : Option Nat :=
  if '0' ≤ c ∧ c ≤ '9' then some (c.toNat - 48)
  else if 'a' ≤ c ∧ c ≤ 'f' then some (c.toNat - 87)
  else if 'A' ≤ c ∧ c ≤ 'F' then some (c.toNat - 55)
  else none

def unquoteChars : List Char → List Char
  | '%' :: a :: b :: rest =>
    match hexVal a, hexVal b with
    | some x, some y => Char.ofNat (16 * x + y) :: unquoteChars rest
    | _, _ => '%' :: unquoteChars (a :: b :: rest)
  | c :: rest => c :: unquoteChars rest
  | [] => []

/-! ## `naming.py` -/

/-- The first maximal run of decimal digits in `l`, as found by
`re.search(r"(\d+)", ...)`: scan left to right for the first digit,
then extend the run as far as possible. -/
def firstDigitRun : List Char → Option (List Char)
  | [] => none
  | c :: rest =>
    if c.isDigit then some (c :: rest.takeWhile Char.isDigit)
    else firstDigitRun rest

/-- Spec-side decomposition of a string into its maximal runs of digits,
in order of occurrence.  Each returned run is flanked by non-digits (or
the ends of the string), which is what "maximal run" means. -/
def digitRuns : List Char → List (List Char)
  | [] => []
  | c :: rest =>
    if c.isDigit then
      (c :: rest.takeWhile Char.isDigit) :: digitRuns (rest.dropWhile Char.isDigit)
    else digitRuns rest
termination_by l => l.length
decreasing_by
  · simp only [List.length_cons]
    exact Nat.lt_succ_of_le (List.dropWhile_sublist _).length_le
  · simp

/-- `naming.source_id_from_page_url`: trailing-slash-stripped path, last
`/`-separated segment, first digit run via `re.search`, else the page
number rendered as text. -/
def source_id_from_page_url (page_url : String) (page_num : Int) : String :=
  let path := dropWhileEnd (· = '/') (urlPath page_url.toList)
  let last_segment := if path.isEmpty then [] else (splitChar '/' path).getLastD []
  match firstDigitRun last_segment with
  | some run => String.mk run
  | none => toString page_num

/-- The final path segment a page URL is reduced to before the digit
search: path, trailing slashes stripped, last `/`-separated chunk. -/
def finalSegment (page_url : String) : List Char :=
  let path := dropWhileEnd (· = '/') (urlPath page_url.toList)
  if path.isEmpty then [] else (splitChar '/' path).getLastD []

/-- The characters replaced by `_` in `naming._safe_filename`:
the regex class `[<>:"/\\|?*\x00-\x1F]`. -/
def isUnsafeChar (c : Char) : Bool :=
  c = '<' || c = '>' || c = ':' || c = '"' || c = '/' || c = '\\' ||
  c = '|' || c = '?' || c = '*' || decide (c.toNat ≤ 31)

/-- The `re.sub` + `strip` part of `naming._safe_filename`: replace
unsafe characters by `_`, strip whitespace, strip dots. -/
def sanitizedChars (name : List Char) : List Char :=
  pyStrip (· = '.') (pyStrip isPySpace (name.map (fun c => if isUnsafeChar c then '_' else c)))

/-- `naming._safe_filename` on character lists: empty results fall back
to `image.bin`. -/
def safeFilenameChars (name : List Char) : List Char :=
  if (sanitizedChars name).isEmpty then "image.bin".toList else sanitizedChars name

/-- `naming._safe_filename`. -/
def safe_filename (name : String) : String :=
  String.mk (safeFilenameChars name.toList)

/-- `naming.image_file_name`: `Path(unquote(parsed.path)).name or "image.bin"`,
then `_safe_filename`.  Note that the path is percent-decoded *before* the
final component is selected. -/
def image_file_name (_image_index : Int) (image_url : String) : String :=
  let basename := pathName (unquoteChars (urlPath image_url.toList))
  let basename := if basename.isEmpty then "image.bin".toList else basename
  String.mk (safeFilenameChars basename)

/-- The file-name computation claimed by the spec sentence for C9:
the final path segment is selected first, *then* percent-decoded,
then sanitized. -/
def image_file_name_claimed (_image_index : Int) (image_url : String) : String :=
  let basename := unquoteChars (pathName (urlPath image_url.toList))
  let basename := if basename.isEmpty then "image.bin".toList else basename
  String.mk (safeFilenameChars basename)

/-- `naming.page_dir_name`: zero-padded six-digit page number. -/
def page_dir_name (page_num : Nat) : String :=
  let s := toString page_num
  String.mk (List.replicate (6 - s.length) '0') ++ s

/-! ## `models.RunConfig` and `config.validate_run_config`

Python floats are modelled as rationals; `pathlib.Path` fields as the
strings they print to. -/

structure RunConfig where
  url_template : String
  start_num : Int
  end_num : Option Int := none
  selector : String := "div.gallerypic img"
  output_dir : String := "data/downloads"
  state_db : String := "data/state.sqlite3"
  engine : String := "requests"
  resume : Bool := true
  page_timeout_sec : ℚ := 20
  image_timeout_sec : ℚ := 30
  image_retries : Int := 3
  page_retries : Int := 2
  request_delay_sec : ℚ := 1/5
  stop_after_consecutive_page_failures : Int := 5
  playwright_fallback : Bool := false
  sequence_count_selector : String := "#tishi p span"
  sequence_require_upper_bound : Bool := true
  sequence_probe_after_upper_bound : Bool := false
deriving DecidableEq

/-- Bool-valued infix test on character lists. -/
def hasInfix (pat : List Char) : List Char → Bool
  | [] => pat.isEmpty
  | c :: rest => pat.isPrefixOf (c :: rest) || hasInfix pat rest

/-- Model of Python `"{num}" in s`. -/
def containsNumPlaceholder (s : String) : Bool :=
  hasInfix "{num}".toList s.toList

/-- Bool form of the `end_num is not None and end_num < start_num` check. -/
def endBeforeStart (c : RunConfig) : Bool :=
  match c.end_num with
  | some e => decide (e < c.start_num)
  | none => false

/-- Model of `s.strip()` being empty (falsy). -/
def stripIsEmpty (s : String) : Bool :=
  (pyStrip isPySpace s.toList).isEmpty

/-- `config.validate_run_config`: the exact chain of checks, in source
order, raising `ValueError` (here: `Except.error`) on the first failure. -/
def validate_run_config (c : RunConfig) : Except String Unit :=
  if !containsNumPlaceholder c.url_template then
    .error "url_template must contain the placeholder"
  else if c.start_num < 0 then .error "start_num must be >= 0"
  else if endBeforeStart c then .error "end_num must be >= start_num"
  else if !(c.engine = "requests" || c.engine = "playwright") then
    .error "engine must be one of: requests, playwright"
  else if c.image_retries < 0 then .error "image_retries must be >= 0"
  else if c.page_retries < 0 then .error "page_retries must be >= 0"
  else if c.stop_after_consecutive_page_failures < 1 then
    .error "stop_after_consecutive_page_failures must be >= 1"
  else if stripIsEmpty c.selector then .error "selector must not be empty"
  else if stripIsEmpty c.sequence_count_selector then
    .error "sequence_count_selector must not be empty"
  else .ok ()

/-- The set of invalid configurations according to claim C7's wording:
missing placeholder, any negative numeric tunable (including the
timeouts, the request delay and the stop threshold), `end_num <
start_num`, whitespace-only selector, unknown engine. -/
def c7ClaimedInvalid (c : RunConfig) : Bool :=
  !containsNumPlaceholder c.url_template ||
  c.start_num < 0 ||
  c.page_timeout_sec < 0 ||
  c.image_timeout_sec < 0 ||
  c.image_retries < 0 ||
  c.page_retries < 0 ||
  c.request_delay_sec < 0 ||
  c.stop_after_consecutive_page_failures < 0 ||
  endBeforeStart c ||
  stripIsEmpty c.selector ||
  !(c.engine = "requests" || c.engine = "playwright")

/-- The set of invalid configurations actually rejected by
`validate_run_config` (amended C7): the timeouts and the request delay
are never checked, the stop threshold must be at least 1 (zero is also
rejected), and an empty `sequence_count_selector` is rejected as well. -/
def c7AmendedInvalid (c : RunConfig) : Bool :=
  !containsNumPlaceholder c.url_template ||
  c.start_num < 0 ||
  endBeforeStart c ||
  !(c.engine = "requests" || c.engine = "playwright") ||
  c.image_retries < 0 ||
  c.page_retries < 0 ||
  c.stop_after_consecutive_page_failures < 1 ||
  stripIsEmpty c.selector ||
  stripIsEmpty c.sequence_count_selector

/-! ## `downloader.ImageDownloader` retry delay (C5) -/

/-- The backoff configuration computed by `ImageDownloader.__init__`:
`_backoff_base_sec = max(0.0, backoff_base_sec)` and
`_backoff_max_sec = max(_backoff_base_sec, backoff_max_sec)`.
Constructor defaults are 0.5 and 8.0. -/
structure BackoffCfg where
  backoff_base_sec : ℚ
  backoff_max_sec : ℚ
deriving DecidableEq

def mkBackoffCfg (backoff_base_sec backoff_max_sec : ℚ) : BackoffCfg :=
  let base := max 0 backoff_base_sec
  { backoff_base_sec := base, backoff_max_sec := max base backoff_max_sec }

/-- `ImageDownloader._retry_delay`.  The call to `random.uniform(0.8, 1.2)`
is modelled by the explicit `jitter` argument. -/
def retry_delay (cfg : BackoffCfg) (attempt : Nat) (delay_sec : ℚ)
    (http_status : Option Int) (jitter : ℚ) : ℚ :=
  if http_status = some 429 ∨ http_status = some 503 then
    let base := max delay_sec cfg.backoff_base_sec
    let backoff := min cfg.backoff_max_sec (base * 2 ^ (attempt - 1))
    backoff * jitter
  else if 0 < delay_sec then delay_sec
  else if cfg.backoff_base_sec ≤ 0 then 0
  else min cfg.backoff_max_sec (cfg.backoff_base_sec * 2 ^ (attempt - 1))

/-- The retry-delay policy exactly as the spec sentence for C5 states it,
with the default constants 0.5 and 8 written in. -/
def retry_delay_spec (attempt : Nat) (delay_sec : ℚ)
    (http_status : Option Int) (jitter : ℚ) : ℚ :=
  if http_status = some 429 ∨ http_status = some 503 then
    min 8 (max delay_sec (1/2) * 2 ^ (attempt - 1)) * jitter
  else if 0 < delay_sec then delay_sec
  else min 8 ((1/2) * 2 ^ (attempt - 1))

/-! ## `downloader.ImageDownloader.download` (C4)

Each loop iteration performs one HTTP attempt whose outcome is an input
of the model: either a streamed success (status, content type, byte
count, sha256 of the body) or a failure carrying the observed HTTP
status (if the exception exposed a response) and the stringified error.
The wall clock is the explicit `now` argument. -/

inductive AttemptOutcome
  | success (status : Int) (content_type : Option String) (size : Nat) (sha : String)
  | failure (status : Option Int) (error : String)
deriving DecidableEq

def AttemptOutcome.isFailure : AttemptOutcome → Bool
  | .success .. => false
  | .failure .. => true

structure DownloadResult where
  ok : Bool
  retries_used : Nat
  http_status : Option Int
  content_type : Option String
  size_bytes : Option Nat
  sha256 : Option String
  downloaded_at : Option String
  error : Option String
deriving DecidableEq

/-- The retry loop of `ImageDownloader.download`, threading the
`last_error` / `last_status` locals; also counts the attempts consumed.
`attempt` is the 1-based attempt number of the next outcome. -/
def downloadFrom (now : String) (retries : Nat) :
    Nat → Option Int → Option String → List AttemptOutcome → DownloadResult × Nat
  | _, lastStatus, lastError, [] =>
    (⟨false, retries, lastStatus, none, none, none, none, lastError⟩, 0)
  | attempt, lastStatus, _lastError, o :: rest =>
    match o with
    | .success st ct sz sh =>
      (⟨true, attempt - 1, some st, ct, some sz, some sh, some now, none⟩, 1)
    | .failure stOpt err =>
      let ls := match stOpt with
                | some s => some s
                | none => lastStatus
      let r := downloadFrom now retries (attempt + 1) ls (some err) rest
      (r.1, r.2 + 1)

/-- `ImageDownloader.download`: `attempts = retries + 1` iterations at
most; the outcome stream beyond that is never consulted. -/
def download (now : String) (retries : Nat) (outs : List AttemptOutcome) :
    DownloadResult × Nat :=
  downloadFrom now retries 1 none none (outs.take (retries + 1))

/-- One attempt's effect on the `last_status` local: a success records
its status; a failure records the status its exception exposed, if any. -/
def statusStep (acc : Option Int) (o : AttemptOutcome) : Option Int :=
  match o with
  | .success st _ _ _ => some st
  | .failure (some s) _ => some s
  | .failure none _ => acc

/-- One attempt's effect on the `last_error` local. -/
def errorStep (acc : Option String) (o : AttemptOutcome) : Option String :=
  match o with
  | .success _ _ _ _ => acc
  | .failure _ e => some e

/-- The last HTTP status observed over a sequence of attempts. -/
def lastObservedStatus (outs : List AttemptOutcome) : Option Int :=
  outs.foldl statusStep none

/-- The last error message over a sequence of attempts. -/
def lastErrorOf (outs : List AttemptOutcome) : Option String :=
  outs.foldl errorStep none

/-! ## `downloader._AdaptiveRateLimiter` (C6)

`time.monotonic()` readings are explicit rational arguments; each public
method application is one step of a transition system. -/

structure Limiter where
  capacity : ℚ
  tokens : ℚ
  base_rate : ℚ
  current_rate : ℚ
  min_rate : ℚ
  max_rate : ℚ
  success_count : Nat
  last_refill : ℚ
  last_adjust : ℚ
deriving DecidableEq

/-- `_AdaptiveRateLimiter.__init__(rate=..., burst=...)` at clock `t0`. -/
def mkLimiter (rate : ℚ) (burst : Int) (t0 : ℚ) : Limiter :=
  let cap : ℚ := max 1 burst
  let base : ℚ := max (1/10) rate
  { capacity := cap
    tokens := cap
    base_rate := base
    current_rate := base
    min_rate := min 1 base
    max_rate := max base (base * 2)
    success_count := 0
    last_refill := t0
    last_adjust := t0 }

/-- `_AdaptiveRateLimiter._refill_locked(now)`. -/
def limiterRefill (s : Limiter) (now : ℚ) : Limiter :=
  if max 0 (now - s.last_refill) ≤ 0 then s
  else { s with
         tokens := min s.capacity (s.tokens + max 0 (now - s.last_refill) * s.current_rate)
         last_refill := now }

/-- One pass of the `acquire` loop body at clock `now` (refill, then
consume a token when one is available; otherwise the caller sleeps and
retries, which in this model is simply a later `acquire` step). -/
def limiterAcquire (s : Limiter) (now : ℚ) : Limiter :=
  if 1 ≤ (limiterRefill s now).tokens then
    { limiterRefill s now with tokens := (limiterRefill s now).tokens - 1 }
  else limiterRefill s now

/-- `_AdaptiveRateLimiter.report_success` at clock `now`: refill, count
the success, and — when 30 s have passed since the last adjustment —
raise the rate (capped at `max_rate`), zero the counter and reset the
adjustment clock. -/
def limiterReportSuccess (s : Limiter) (now : ℚ) : Limiter :=
  if 30 ≤ now - (limiterRefill s now).last_adjust then
    { limiterRefill s now with
      current_rate := min (limiterRefill s now).max_rate
        ((limiterRefill s now).current_rate * (11/10))
      success_count := 0
      last_adjust := now }
  else
    { limiterRefill s now with
      success_count := (limiterRefill s now).success_count + 1 }

/-- `_AdaptiveRateLimiter.report_throttled` at clock `now`. -/
def limiterReportThrottled (s : Limiter) (now : ℚ) : Limiter :=
  { s with
    current_rate := max s.min_rate (s.current_rate * (7/10))
    success_count := 0
    last_adjust := now }

inductive LimiterOp
  | acquire (t : ℚ)
  | success (t : ℚ)
  | throttled (t : ℚ)

def limiterStep (s : Limiter) : LimiterOp → Limiter
  | .acquire t => limiterAcquire s t
  | .success t => limiterReportSuccess s t
  | .throttled t => limiterReportThrottled s t

/-- The limiter state after a sequence of operations. -/
def runLimiter (rate : ℚ) (burst : Int) (t0 : ℚ) (ops : List LimiterOp) : Limiter :=
  ops.foldl limiterStep (mkLimiter rate burst t0)

/-! ## The `run` loop of `pipeline.ImageHarvesterPipeline` (C3)

With `end_num` unset the loop consumes one page outcome per iteration:
a resume-mode skip (page already terminal — the `continue` branch), a
success (`_process_page` returned true, i.e. the refreshed status is
`completed` or `completed_with_failures`) or a failure (any other
resulting status: `failed_fetch` or `no_images`). -/

inductive PageOutcome
  | skip
  | success
  | failure
deriving DecidableEq

/-- How one processed page updates `consecutive_page_failures`. -/
def stepCounter (c : Nat) : PageOutcome → Nat
  | .skip => c
  | .success => 0
  | .failure => c + 1

/-- `consecutive_page_failures` after processing a list of pages from
counter 0. -/
def consecFail (l : List PageOutcome) : Nat :=
  l.foldl stepCounter 0

/-- The `while True` loop of `run` with `end_num = None`, starting from
counter `c`: consumes page outcomes in order and returns the number of
pages consumed when the stop threshold `K` fires (`none` when the finite
outcome list is exhausted without firing).  A skipped page bypasses the
threshold check (`continue`); a processed page updates the counter and
then compares it against `K`. -/
def runLoop (K : Nat) : Nat → List PageOutcome → Option Nat
  | _, [] => none
  | c, .skip :: rest => (runLoop K c rest).map (· + 1)
  | _, .success :: rest => (runLoop K 0 rest).map (· + 1)
  | c, .failure :: rest =>
    if K ≤ c + 1 then some 1
    else (runLoop K (c + 1) rest).map (· + 1)

/-! ## `state.StateStore` rows and `reset_running_to_pending` (C2) -/

structure PageRow where
  id : Int
  job_id : String
  page_num : Int
  page_url : String
  source_id : String
  status : String
  last_completed_image_index : Int
  image_count : Int
  error : Option String
  started_at : String
  updated_at : String
  finished_at : Option String
deriving DecidableEq

structure ImageRow where
  id : Int
  page_id : Int
  image_index : Int
  url : String
  local_path : String
  status : String
  retries : Int
  http_status : Option Int
  content_type : Option String
  size_bytes : Option Int
  sha256 : Option String
  downloaded_at : Option String
  error : Option String
  updated_at : String
deriving DecidableEq

/-- The two tables touched by `reset_running_to_pending`. -/
structure StateDB where
  pages : List PageRow
  images : List ImageRow
deriving DecidableEq

/-- The page ids belonging to a job: `SELECT id FROM pages WHERE job_id = ?`. -/
def jobPageIds (pages : List PageRow) (job_id : String) : List Int :=
  (pages.filter (fun p => p.job_id = job_id)).map (fun p => p.id)

/-- The row transformation of `UPDATE pages SET status='pending', updated_at=?
WHERE job_id = ? AND status = 'running'`. -/
def resetPagesFn (now job_id : String) (p : PageRow) : PageRow :=
  if p.job_id = job_id ∧ p.status = "running" then
    { p with status := "pending", updated_at := now }
  else p

/-- The row transformation of the images `UPDATE`, with `ids` the result
of the `page_id IN (SELECT id FROM pages WHERE job_id = ?)` subquery. -/
def resetImagesFn (now : String) (ids : List Int) (i : ImageRow) : ImageRow :=
  if i.page_id ∈ ids ∧ i.status = "running" then
    { i with status := "pending", updated_at := now }
  else i

/-- `StateStore.reset_running_to_pending(job_id)` at timestamp `now`:
first the `UPDATE pages ...`, then the `UPDATE images ...` whose
`page_id IN` subquery runs against the already-updated pages table. -/
def reset_running_to_pending (now : String) (job_id : String) (db : StateDB) : StateDB :=
  { pages := db.pages.map (resetPagesFn now job_id)
    images := db.images.map (resetImagesFn now
      (jobPageIds (db.pages.map (resetPagesFn now job_id)) job_id)) }

/-! ## `config.compute_job_id` (C1)

`json.dumps(config.as_job_identity(), sort_keys=True, ensure_ascii=True)`
followed by `hashlib.sha1(...).hexdigest()[:16]` with the `job_` prefix.
The identity dictionary holds strings and booleans only, so the JSON
value type needs just those two constructors.  SHA-1 is implemented over
byte lists with 32-bit words as `Nat % 2^32`. -/

inductive JVal
  | str (s : String)
  | bool (b : Bool)
deriving DecidableEq

def hexDigitChar (n : Nat) : Char :=
  if n < 10 then Char.ofNat (48 + n) else Char.ofNat (87 + n)

def toHex4 (n : Nat) : List Char :=
  [hexDigitChar ((n >>> 12) &&& 15), hexDigitChar ((n >>> 8) &&& 15),
   hexDigitChar ((n >>> 4) &&& 15), hexDigitChar (n &&& 15)]

/-- One character of Python's `json` ASCII string escaping
(`py_encode_basestring_ascii`). -/
def jsonEscapeChar (c : Char) : List Char :=
  if c = '"' then ['\\', '"']
  else if c = '\\' then ['\\', '\\']
  else if c = '\n' then ['\\', 'n']
  else if c = '\t' then ['\\', 't']
  else if c = '\r' then ['\\', 'r']
  else if c = '\x08' then ['\\', 'b']
  else if c = '\x0c' then ['\\', 'f']
  else if c.toNat < 32 then '\\' :: 'u' :: toHex4 c.toNat
  else if c.toNat ≤ 126 then [c]
  else if c.toNat < 65536 then '\\' :: 'u' :: toHex4 c.toNat
  else
    let v := c.toNat - 65536
    ('\\' :: 'u' :: toHex4 (55296 + v / 1024)) ++ ('\\' :: 'u' :: toHex4 (56320 + v % 1024))

def jsonStringChars (s : String) : List Char :=
  '"' :: (s.toList.map jsonEscapeChar).flatten ++ ['"']

def jvalChars : JVal → List Char
  | .str s => jsonStringChars s
  | .bool b => if b then "true".toList else "false".toList

/-- One `"key": value` entry (the default `json.dumps` separators). -/
def renderEntry (kv : String × JVal) : List Char :=
  jsonStringChars kv.1 ++ (':' :: ' ' :: jvalChars kv.2)

/-- Lexicographic comparison of character lists by code point — the
order Python's `sorted` applies to `str` keys. -/
def charListLe : List Char → List Char → Bool
  | [], _ => true
  | _ :: _, [] => false
  | a :: as, b :: bs =>
    if a.toNat < b.toNat then true
    else if b.toNat < a.toNat then false
    else charListLe as bs

/-- Comparison of entries by key, the order `sort_keys=True` sorts by. -/
def keyLe (a b : String × JVal) : Prop := charListLe a.1.toList b.1.toList = true

instance : DecidableRel keyLe :=
  fun a b => inferInstanceAs (Decidable (charListLe a.1.toList b.1.toList = true))

/-- Sorting of the entries by key, as `sort_keys=True` does. -/
def sortEntries (kvs : List (String × JVal)) : List (String × JVal) :=
  kvs.insertionSort keyLe

/-- `json.dumps(dict, sort_keys=True, ensure_ascii=True)`. -/
def canonicalJson (kvs : List (String × JVal)) : String :=
  let body := (((sortEntries kvs).map renderEntry).intersperse [',', ' ']).flatten
  String.mk (Char.ofNat 123 :: body ++ [Char.ofNat 125])

/-! ### SHA-1 -/

def w32 (n : Nat) : Nat := n % 4294967296

def rotl32 (s x : Nat) : Nat := w32 (x <<< s) ||| (x >>> (32 - s))

def not32 (x : Nat) : Nat := 4294967295 ^^^ x

/-- `k` bytes of `n`, most significant first. -/
def beBytes : Nat → Nat → List Nat
  | 0, _ => []
  | k + 1, n => beBytes k (n >>> 8) ++ [n &&& 255]

/-- Merkle–Damgård padding: `0x80`, zeros to 56 mod 64, then the bit
length in 8 big-endian bytes. -/
def sha1Pad (msg : List Nat) : List Nat :=
  let L := msg.length
  msg ++ 128 :: List.replicate ((64 - ((L + 9) % 64)) % 64) 0 ++ beBytes 8 (8 * L)

def bytesToWords : List Nat → List Nat
  | a :: b :: c :: d :: rest => (((a * 256 + b) * 256 + c) * 256 + d) :: bytesToWords rest
  | _ => []

/-- Split a list into 64-byte blocks; the fuel bounds the number of
blocks and is structurally consumed. -/
def toBlocksGo : Nat → List Nat → List (List Nat)
  | 0, _ => []
  | _, [] => []
  | fuel + 1, a :: l => ((a :: l).take 64) :: toBlocksGo fuel ((a :: l).drop 64)

/-- Split a padded message into 64-byte blocks. -/
def toBlocks (l : List Nat) : List (List Nat) :=
  toBlocksGo l.length l

/-- Message-schedule extension; `acc` holds the words produced so far,
most recent first. -/
def sha1ExtendRev (acc : List Nat) : Nat → List Nat
  | 0 => acc.reverse
  | n + 1 =>
    sha1ExtendRev
      (rotl32 1 ((acc.getD 2 0) ^^^ (acc.getD 7 0) ^^^ (acc.getD 13 0) ^^^ (acc.getD 15 0)) :: acc)
      n

def sha1F (i b c d : Nat) : Nat :=
  if i < 20 then (b &&& c) ||| (not32 b &&& d)
  else if i < 40 then b ^^^ c ^^^ d
  else if i < 60 then (b &&& c) ||| (b &&& d) ||| (c &&& d)
  else b ^^^ c ^^^ d

def sha1K (i : Nat) : Nat :=
  if i < 20 then 1518500249
  else if i < 40 then 1859775393
  else if i < 60 then 2400959708
  else 3395469782

structure Sha1State where
  a : Nat
  b : Nat
  c : Nat
  d : Nat
  e : Nat

def sha1Compress (h : Sha1State) (block : List Nat) : Sha1State :=
  let ws := sha1ExtendRev (bytesToWords block).reverse 64
  let f := ws.enum.foldl
    (fun (st : Sha1State) (iw : Nat × Nat) =>
      let temp := w32 (rotl32 5 st.a + sha1F iw.1 st.b st.c st.d + st.e + sha1K iw.1 + iw.2)
      ⟨temp, st.a, rotl32 30 st.b, st.c, st.d⟩)
    h
  ⟨w32 (h.a + f.a), w32 (h.b + f.b), w32 (h.c + f.c), w32 (h.d + f.d), w32 (h.e + f.e)⟩

def toHex8 (n : Nat) : List Char :=
  toHex4 (n >>> 16) ++ toHex4 (n &&& 65535)

/-- `hashlib.sha1(bytes).hexdigest()`. -/
def sha1Hex (msg : List Nat) : String :=
  let st := (toBlocks (sha1Pad msg)).foldl sha1Compress
    ⟨1732584193, 4023233417, 2562383102, 271733878, 3285377520⟩
  String.mk (toHex8 st.a ++ toHex8 st.b ++ toHex8 st.c ++ toHex8 st.d ++ toHex8 st.e)

/-- `RunConfig.as_job_identity`: the identity subset, in source order. -/
def as_job_identity (c : RunConfig) : List (String × JVal) :=
  [("url_template", .str c.url_template),
   ("selector", .str c.selector),
   ("output_dir", .str c.output_dir),
   ("engine", .str c.engine),
   ("sequence_count_selector", .str c.sequence_count_selector),
   ("sequence_require_upper_bound", .bool c.sequence_require_upper_bound),
   ("sequence_probe_after_upper_bound", .bool c.sequence_probe_after_upper_bound)]

/-- UTF-8 bytes of an ASCII string (canonical JSON with
`ensure_ascii=True` is pure ASCII, where UTF-8 is the identity on code
points). -/
def strBytes (s : String) : List Nat :=
  s.toList.map Char.toNat

/-- `config.compute_job_id`. -/
def compute_job_id (c : RunConfig) : String :=
  "job_" ++ (sha1Hex (strBytes (canonicalJson (as_job_identity c)))).take 16

/-! # Supporting lemmas -/

/-! ## String-helper lemmas -/

theorem mem_of_mem_dropWhileEnd {p : Char → Bool} {l : List Char} {x : Char}
    (h : x ∈ dropWhileEnd p l) : x ∈ l := by
  unfold dropWhileEnd at h
  rw [List.mem_reverse] at h
  have := (List.dropWhile_sublist (l := l.reverse) p).subset h
  rwa [List.mem_reverse] at this

theorem mem_of_mem_pyStrip {p : Char → Bool} {l : List Char} {x : Char}
    (h : x ∈ pyStrip p l) : x ∈ l := by
  unfold pyStrip at h
  exact (List.dropWhile_sublist p).subset (mem_of_mem_dropWhileEnd h)

theorem dropWhile_head?_not {p : Char → Bool} :
    ∀ {l : List Char} {c : Char}, (List.dropWhile p l).head? = some c → p c = false := by
  intro l
  induction l with
  | nil => intro c h; simp [List.dropWhile] at h
  | cons x xs ih =>
    intro c h
    rw [List.dropWhile_cons] at h
    by_cases hx : p x = true
    · rw [if_pos hx] at h
      exact ih h
    · rw [if_neg hx] at h
      simp only [List.head?_cons, Option.some.injEq] at h
      subst h
      exact Bool.eq_false_iff.mpr hx

theorem head?_dropWhileEnd_of_ne_nil {p : Char → Bool} {m : List Char}
    (h : dropWhileEnd p m ≠ []) : (dropWhileEnd p m).head? = m.head? := by
  obtain ⟨t, ht⟩ := List.dropWhile_suffix (l := m.reverse) p
  have hm : m = dropWhileEnd p m ++ t.reverse := by
    unfold dropWhileEnd
    calc m = m.reverse.reverse := (List.reverse_reverse m).symm
    _ = (t ++ m.reverse.dropWhile p).reverse := by rw [ht]
    _ = (m.reverse.dropWhile p).reverse ++ t.reverse := by rw [List.reverse_append]
  conv_rhs => rw [hm]
  rw [List.head?_append]
  cases hr : (dropWhileEnd p m).head? with
  | none => exact absurd (List.head?_eq_none_iff.mp hr) h
  | some c => rfl

theorem pyStrip_head?_not {p : Char → Bool} {l : List Char} {c : Char}
    (h : (pyStrip p l).head? = some c) : p c = false := by
  unfold pyStrip at h
  have hne : dropWhileEnd p (l.dropWhile p) ≠ [] := by
    intro hnil
    rw [hnil] at h
    simp at h
  rw [head?_dropWhileEnd_of_ne_nil hne] at h
  exact dropWhile_head?_not h

/-! ## `splitChar` lemmas -/

theorem splitChar_ne_nil (c : Char) : ∀ l : List Char, splitChar c l ≠ []
  | [] => by simp [splitChar]
  | x :: rest => by
    rw [splitChar]
    by_cases hx : x = c
    · simp [hx]
    · rw [if_neg hx]
      cases hr : splitChar c rest with
      | nil => exact absurd hr (splitChar_ne_nil c rest)
      | cons s tl => simp

theorem mem_of_mem_splitChar {c : Char} :
    ∀ {l : List Char} {s : List Char} {x : Char}, s ∈ splitChar c l → x ∈ s → x ∈ l := by
  intro l
  induction l with
  | nil =>
    intro s x hs hx
    simp [splitChar] at hs
    subst hs
    simp at hx
  | cons y rest ih =>
    intro s x hs hx
    rw [splitChar] at hs
    by_cases hy : y = c
    · rw [if_pos hy] at hs
      rcases List.mem_cons.mp hs with h | h
      · subst h; simp at hx
      · exact List.mem_cons_of_mem y (ih h hx)
    · rw [if_neg hy] at hs
      cases hr : splitChar c rest with
      | nil => exact absurd hr (splitChar_ne_nil c rest)
      | cons s0 tl =>
        rw [hr] at hs
        rcases List.mem_cons.mp hs with h | h
        · subst h
          rcases List.mem_cons.mp hx with h | h
          · exact h ▸ List.mem_cons_self y rest
          · exact List.mem_cons_of_mem y (ih (hr ▸ List.mem_cons_self s0 tl) h)
        · exact List.mem_cons_of_mem y (ih (hr ▸ List.mem_cons_of_mem s0 h) hx)

theorem splitChar_cons (c y : Char) (rest : List Char) :
    splitChar c (y :: rest) =
      if y = c then [] :: splitChar c rest
      else
        match splitChar c rest with
        | s :: tl => (y :: s) :: tl
        | [] => [[y]] := rfl

theorem splitChar_append_cons (c : Char) :
    ∀ l1 l2 : List Char, splitChar c (l1 ++ c :: l2) = splitChar c l1 ++ splitChar c l2 := by
  intro l1 l2
  induction l1 with
  | nil => simp [splitChar]
  | cons y l1 ih =>
    rw [List.cons_append, splitChar_cons, splitChar_cons, ih]
    by_cases hy : y = c
    · rw [if_pos hy, if_pos hy, List.cons_append]
    · rw [if_neg hy, if_neg hy]
      cases hr : splitChar c l1 with
      | nil => exact absurd hr (splitChar_ne_nil c l1)
      | cons s0 tl => simp

theorem splitChar_of_not_mem {c : Char} : ∀ {l : List Char}, c ∉ l → splitChar c l = [l] := by
  intro l
  induction l with
  | nil => intro _; rfl
  | cons y rest ih =>
    intro h
    have hy : ¬y = c := fun he => h (he ▸ List.mem_cons_self y rest)
    have hr : c ∉ rest := fun hm => h (List.mem_cons_of_mem y hm)
    rw [splitChar, if_neg hy, ih hr]

theorem mem_of_mem_pathName {l : List Char} {x : Char} (h : x ∈ pathName l) : x ∈ l := by
  unfold pathName at h
  cases hx : (splitChar '/' l).filter (fun p => !(p.isEmpty || p = ['.'])) with
  | nil => rw [hx] at h; simp at h
  | cons s tl =>
    rw [hx] at h
    have hmem : ((s :: tl).getLastD []) ∈ s :: tl := by
      rw [List.getLastD_eq_getLast?, List.getLast?_eq_getLast (s :: tl) (by simp)]
      exact List.getLast_mem _
    have hs : ((s :: tl).getLastD []) ∈ splitChar '/' l :=
      List.mem_of_mem_filter (by rw [hx]; exact hmem)
    exact mem_of_mem_splitChar hs h

/-! ## `unquoteChars` and `urlPath` lemmas -/

theorem unquoteChars_cons_of_ne {c : Char} {rest : List Char} (hc : c ≠ '%') :
    unquoteChars (c :: rest) = c :: unquoteChars rest := by
  rw [unquoteChars.eq_def]
  split
  · rename_i a b r2 heq
    rw [List.cons.injEq] at heq
    exact absurd heq.1 hc
  · rename_i c2 r2 heq
    rw [List.cons.injEq] at heq
    rw [heq.1, heq.2]
  · rename_i heq
    exact absurd heq (by simp)

theorem unquoteChars_of_no_pct : ∀ {l : List Char}, '%' ∉ l → unquoteChars l = l := by
  intro l
  induction l with
  | nil => intro _; rfl
  | cons c rest ih =>
    intro h
    have hc : c ≠ '%' := fun he => h (he ▸ List.mem_cons_self c rest)
    have hr : '%' ∉ rest := fun hm => h (List.mem_cons_of_mem c hm)
    rw [unquoteChars_cons_of_ne hc, ih hr]

theorem mem_of_mem_splitScheme {l : List Char} {x : Char}
    (h : x ∈ (splitScheme l).2) : x ∈ l := by
  cases l with
  | nil => exact h
  | cons c rest =>
    rw [splitScheme] at h
    by_cases ha : c.isAlpha
    · rw [if_pos ha] at h
      split at h
      · rename_i tail heq
        apply List.mem_cons_of_mem
        have hx : x ∈ rest.drop (rest.takeWhile isSchemeChar).length := by
          rw [heq]
          exact List.mem_cons_of_mem _ h
        exact (List.drop_subset _ rest) hx
      · exact h
    · rwa [if_neg ha] at h

theorem mem_of_mem_splitParamsPath {path : List Char} {x : Char}
    (h : x ∈ splitParamsPath path) : x ∈ path := by
  unfold splitParamsPath at h
  split at h
  · rcases List.mem_append.mp h with h | h
    · rw [List.mem_reverse] at h
      have h2 := (List.drop_subset _ _) h
      rwa [List.mem_reverse] at h2
    · have h1 := (List.takeWhile_sublist _).subset h
      rw [List.mem_reverse] at h1
      have h2 := (List.takeWhile_sublist _).subset h1
      rwa [List.mem_reverse] at h2
  · exact (List.takeWhile_sublist _).subset h

theorem mem_of_mem_dropAuthority {l : List Char} {x : Char} (h : x ∈ dropAuthority l) : x ∈ l := by
  unfold dropAuthority at h
  split at h
  · rename_i rest
    exact List.mem_cons_of_mem _ (List.mem_cons_of_mem _
      ((List.dropWhile_sublist _).subset h))
  · exact h

theorem mem_of_mem_urlPath {u : List Char} {x : Char} (h : x ∈ urlPath u) : x ∈ u := by
  unfold urlPath cutAt at h
  split at h
  · exact mem_of_mem_splitScheme (mem_of_mem_dropAuthority
      ((List.takeWhile_sublist _).subset ((List.takeWhile_sublist _).subset
        (mem_of_mem_splitParamsPath h))))
  · exact mem_of_mem_splitScheme (mem_of_mem_dropAuthority
      ((List.takeWhile_sublist _).subset ((List.takeWhile_sublist _).subset h)))

/-! ## `_safe_filename` lemmas -/

theorem toList_mk (l : List Char) : (String.mk l).toList = l := rfl

theorem safeFilenameChars_ne_nil (l : List Char) : safeFilenameChars l ≠ [] := by
  unfold safeFilenameChars
  split
  · decide
  · rename_i h
    exact fun hnil => h (by rw [hnil]; rfl)

theorem safeFilenameChars_head?_ne_dot (l : List Char) :
    ∀ c, (safeFilenameChars l).head? = some c → c ≠ '.' := by
  unfold safeFilenameChars
  split
  · intro c h
    rw [show ("image.bin".toList.head?) = some 'i' from rfl] at h
    cases h
    decide
  · intro c h
    unfold sanitizedChars at h
    have := pyStrip_head?_not h
    simpa using this

theorem mem_safeFilenameChars_safe {l : List Char} {c : Char}
    (h : c ∈ safeFilenameChars l) : c ≠ '/' ∧ c ≠ '\\' ∧ 32 ≤ c.toNat := by
  unfold safeFilenameChars at h
  split at h
  · fin_cases h <;> refine ⟨by decide, by decide, by decide⟩
  · unfold sanitizedChars at h
    have hmap := (List.dropWhile_sublist _).subset
      (mem_of_mem_dropWhileEnd (mem_of_mem_pyStrip h))
    obtain ⟨c0, _, hc0⟩ := List.mem_map.mp hmap
    by_cases hu : isUnsafeChar c0
    · rw [if_pos hu] at hc0
      subst hc0
      exact ⟨by decide, by decide, by decide⟩
    · rw [if_neg hu] at hc0
      subst hc0
      refine ⟨?_, ?_, ?_⟩
      · intro he
        rw [he] at hu
        exact hu (by decide)
      · intro he
        rw [he] at hu
        exact hu (by decide)
      · by_contra hlt
        have hle : c0.toNat ≤ 31 := by omega
        exact hu (by simp [isUnsafeChar, hle])

theorem mk_safeFilenameChars_ne_empty (l : List Char) : String.mk (safeFilenameChars l) ≠ "" := by
  intro h
  exact safeFilenameChars_ne_nil l (congrArg String.toList h)

theorem mk_safeFilenameChars_ne_dot (l : List Char) : String.mk (safeFilenameChars l) ≠ "." := by
  intro h
  have hl : safeFilenameChars l = ['.'] := congrArg String.toList h
  exact safeFilenameChars_head?_ne_dot l '.' (by rw [hl]; rfl) rfl

theorem mk_safeFilenameChars_ne_dotdot (l : List Char) :
    String.mk (safeFilenameChars l) ≠ ".." := by
  intro h
  have hl : safeFilenameChars l = ['.', '.'] := congrArg String.toList h
  exact safeFilenameChars_head?_ne_dot l '.' (by rw [hl]; rfl) rfl

/-- Joining a directory with a `/`-free, non-empty, non-`.` file name:
the final path component of the joined path is the file name itself. -/
theorem pathName_append (dir : List Char) {name : List Char}
    (hne : name ≠ []) (hdot : name ≠ ['.']) (hsl : '/' ∉ name) :
    pathName (dir ++ '/' :: name) = name := by
  unfold pathName
  rw [splitChar_append_cons, splitChar_of_not_mem hsl, List.filter_append]
  have hniE : name.isEmpty = false := by
    cases name with
    | nil => exact absurd rfl hne
    | cons a as => rfl
  have hkeep : List.filter (fun p => !(p.isEmpty || p = ['.'])) [name] = [name] := by
    simp [List.filter, hniE, hdot]
  rw [hkeep]
  induction (List.filter (fun p => !(p.isEmpty || p = ['.'])) (splitChar '/' dir)) with
  | nil => rfl
  | cons a as ih =>
    rw [List.cons_append]
    cases as with
    | nil => rfl
    | cons b bs => exact ih

/-! ## `firstDigitRun` versus maximal digit runs -/

theorem firstDigitRun_eq_head (l : List Char) : firstDigitRun l = (digitRuns l).head? := by
  induction l with
  | nil => simp [firstDigitRun, digitRuns]
  | cons c rest ih =>
    by_cases h : c.isDigit
    · simp [firstDigitRun, digitRuns, h]
    · simp [firstDigitRun, digitRuns, h, ih]

/-! # Claims -/

/-- C8 (counterexample): the claim says `source_id_from_page_url` returns
the *last* maximal digit run of the final path segment — for final
segment `12abc34` that would be `"34"` — but the code's
`re.search(r"(\d+)", ...)` finds the *first* run, `"12"`. -/
theorem source_id_counterexample :
    source_id_from_page_url "https://a.example/12abc34" 7 = "12" ∧
    ("12" : String) ≠ "34" :=
  ⟨rfl, by decide⟩

/-- C8 (amended): for every page URL and page number,
`source_id_from_page_url` returns the *first* maximal run of decimal
digits in the URL's final path segment when that segment contains a
digit (for final segment `12abc34` it returns `"12"`), and otherwise the
page number rendered as text. -/
theorem source_id_first_digit_run (page_url : String) (page_num : Int) :
    source_id_from_page_url page_url page_num =
      match (digitRuns (finalSegment page_url)).head? with
      | some run => String.mk run
      | none => toString page_num := by
  simp only [source_id_from_page_url, finalSegment]
  rw [firstDigitRun_eq_head]

/-- C9 (counterexample): the claim says the final path segment is
selected *before* percent-decoding, so `a%2Fb.png` would decode to
`a/b.png` and sanitize to `a_b.png`; the code decodes the whole path
first and then takes the final component, yielding `b.png`. -/
theorem image_file_name_counterexample :
    image_file_name 1 "http://h/a%2Fb.png" = "b.png" ∧
    image_file_name_claimed 1 "http://h/a%2Fb.png" = "a_b.png" ∧
    ("b.png" : String) ≠ "a_b.png" :=
  ⟨rfl, rfl, by decide⟩

/-- C9 (amended): `image_file_name` URL-unquotes the URL's path *first*
and then takes the final path component of the decoded path (so a
percent-encoded `/` shifts which segment is chosen), then sanitizes with
the `[<>:"/\\|?*\x00-\x1F] → _` class, trims whitespace and dots, and
falls back to `image.bin`; when the URL contains no percent escape this
coincides with the claimed segment-first order. -/
theorem image_file_name_unquotes_path_first (idx : Int) (url : String)
    (h : '%' ∉ url.toList) :
    image_file_name idx url = image_file_name_claimed idx url := by
  have hp : '%' ∉ urlPath url.toList := fun hm => h (mem_of_mem_urlPath hm)
  have hpn : '%' ∉ pathName (urlPath url.toList) := fun hm => hp (mem_of_mem_pathName hm)
  simp only [image_file_name, image_file_name_claimed]
  rw [unquoteChars_of_no_pct hp, unquoteChars_of_no_pct hpn]

/-- Witness for the amended C9 at a concrete escape-free URL. -/
theorem image_file_name_unquotes_path_first_witness :
    image_file_name 3 "https://a.example/cat/pic-01.jpg" =
      image_file_name_claimed 3 "https://a.example/cat/pic-01.jpg" :=
  image_file_name_unquotes_path_first 3 "https://a.example/cat/pic-01.jpg" (by decide)

/-- C10: every file name produced by `image_file_name` is non-empty,
contains no `/`, no `\`, and no control character below `0x20`, and is
never `.` or `..`; joining it under any directory with `/` therefore
yields a path whose final component is exactly that file name (no
traversal out of the page directory). -/
theorem image_file_name_traversal_safe (idx : Int) (url : String) :
    image_file_name idx url ≠ "" ∧
    image_file_name idx url ≠ "." ∧
    image_file_name idx url ≠ ".." ∧
    (∀ c ∈ (image_file_name idx url).toList, c ≠ '/' ∧ c ≠ '\\' ∧ 32 ≤ c.toNat) ∧
    (∀ dir : List Char,
      pathName (dir ++ '/' :: (image_file_name idx url).toList) =
        (image_file_name idx url).toList) := by
  simp only [image_file_name]
  refine ⟨mk_safeFilenameChars_ne_empty _, mk_safeFilenameChars_ne_dot _,
    mk_safeFilenameChars_ne_dotdot _, ?_, ?_⟩
  · intro c hc
    rw [toList_mk] at hc
    exact mem_safeFilenameChars_safe hc
  · intro dir
    rw [toList_mk]
    refine pathName_append dir (safeFilenameChars_ne_nil _) ?_ ?_
    · intro hdot
      exact safeFilenameChars_head?_ne_dot _ '.' (by rw [hdot]; rfl) rfl
    · intro hsl
      exact (mem_safeFilenameChars_safe hsl).1 rfl

/-- Witness for C10 at a concrete URL (first conjunct). -/
theorem image_file_name_traversal_safe_witness :
    image_file_name 1 "https://a.example/x/%2E%2E.jpg" ≠ "" :=
  (image_file_name_traversal_safe 1 "https://a.example/x/%2E%2E.jpg").1

/-- Configuration refuting C7 as stated: a negative `request_delay_sec`,
which the claim lists as invalid but `validate_run_config` accepts. -/
def c7Example : RunConfig :=
  { url_template := "https://e.test/g/{num}.html", start_num := 1, request_delay_sec := -1 }

/-- C7 (counterexample): the claim's set of invalid configurations does
not match the code — a configuration with `request_delay_sec = -1`
(claimed invalid: a negative numeric tunable) passes validation. -/
theorem validate_counterexample :
    validate_run_config c7Example = Except.ok () ∧ c7ClaimedInvalid c7Example = true :=
  ⟨rfl, rfl⟩

/-- C7 (amended): `validate_run_config` rejects exactly: a missing
`{num}` placeholder, `start_num < 0`, `end_num < start_num`, an engine
outside requests/playwright, `image_retries < 0`, `page_retries < 0`,
`stop_after_consecutive_page_failures < 1` (so 0 is also rejected, not
only negatives), a whitespace-only `selector`, and a whitespace-only
`sequence_count_selector`; it never checks the timeouts or
`request_delay_sec`, and accepts every other configuration. -/
theorem validate_exactly_amended (c : RunConfig) :
    validate_run_config c = Except.ok () ↔ c7AmendedInvalid c = false := by
  unfold validate_run_config c7AmendedInvalid
  split_ifs with h1 h2 h3 h4 h5 h6 h7 h8 h9 <;>
    simp_all [Bool.or_eq_false_iff]

/-- Witness for the amended C7 at the counterexample configuration,
which is accepted by both sides of the characterization. -/
theorem validate_exactly_amended_witness :
    validate_run_config c7Example = Except.ok () ↔ c7AmendedInvalid c7Example = false :=
  validate_exactly_amended c7Example

/-- C5: for the default backoff constants (`backoff_base = 0.5 s`,
`backoff_max = 8 s`) and every attempt number `n ≥ 1`, delay, last
status and jitter factor in `[0.8, 1.2)`, `_retry_delay` computes: for
status 429/503, `min(8, max(delay, 0.5)·2^(n-1))·jitter`; otherwise
`delay` when positive, else `min(8, 0.5·2^(n-1))`. -/
theorem retry_delay_matches_spec (n : Nat) (_hn : 1 ≤ n) (delay_sec : ℚ)
    (http_status : Option Int) (jitter : ℚ)
    (_hj1 : 4/5 ≤ jitter) (_hj2 : jitter < 6/5) :
    retry_delay (mkBackoffCfg (1/2) 8) n delay_sec http_status jitter =
      retry_delay_spec n delay_sec http_status jitter := by
  have hcfg : mkBackoffCfg (1/2) 8 = ⟨1/2, 8⟩ := by
    have hA : max (0 : ℚ) (1/2) = 1/2 := max_eq_right (by norm_num)
    have hB : max (1/2 : ℚ) 8 = 8 := max_eq_right (by norm_num)
    simp only [mkBackoffCfg, hA, hB]
  rw [hcfg]
  unfold retry_delay retry_delay_spec
  split_ifs with h1 h2 h3 <;> first
  | rfl
  | norm_num at h3

/-- Witness for C5 at `n = 1`, a throttling status and unit jitter. -/
theorem retry_delay_matches_spec_witness :
    retry_delay (mkBackoffCfg (1/2) 8) 1 0 (some 429) 1 =
      retry_delay_spec 1 0 (some 429) 1 :=
  retry_delay_matches_spec 1 (by norm_num) 0 (some 429) 1 (by norm_num) (by norm_num)

/-! ## Rate-limiter invariant (C6) -/

/-- The rate-field invariant maintained by every limiter operation;
`base` is the effective base rate `max(0.1, rate)`. -/
def limiterInv (base : ℚ) (s : Limiter) : Prop :=
  s.min_rate = min 1 base ∧ s.max_rate = 2 * base ∧
  min 1 base ≤ s.current_rate ∧ s.current_rate ≤ 2 * base

theorem mkLimiter_inv (rate : ℚ) (burst : Int) (t0 : ℚ) :
    limiterInv (max (1/10) rate) (mkLimiter rate burst t0) := by
  have hpos : (0 : ℚ) < max (1/10) rate := lt_of_lt_of_le (by norm_num) (le_max_left _ _)
  refine ⟨rfl, ?_, ?_, ?_⟩
  · show max (max (1/10) rate) (max (1/10) rate * 2) = 2 * max (1/10) rate
    rw [max_eq_right (by linarith : max (1/10) rate ≤ max (1/10) rate * 2)]
    ring
  · show min 1 (max (1/10) rate) ≤ max (1/10) rate
    exact min_le_right _ _
  · show max (1/10) rate ≤ 2 * max (1/10) rate
    linarith

theorem limiterRefill_fields (s : Limiter) (now : ℚ) :
    (limiterRefill s now).current_rate = s.current_rate ∧
    (limiterRefill s now).min_rate = s.min_rate ∧
    (limiterRefill s now).max_rate = s.max_rate ∧
    (limiterRefill s now).last_adjust = s.last_adjust := by
  unfold limiterRefill
  split <;> exact ⟨rfl, rfl, rfl, rfl⟩

theorem limiterInv_refill {base : ℚ} {s : Limiter} (h : limiterInv base s) (now : ℚ) :
    limiterInv base (limiterRefill s now) := by
  unfold limiterRefill
  split
  · exact h
  · exact ⟨h.1, h.2.1, h.2.2.1, h.2.2.2⟩

theorem limiterStep_inv {base : ℚ} (hpos : 0 < base) {s : Limiter}
    (h : limiterInv base s) (op : LimiterOp) : limiterInv base (limiterStep s op) := by
  have hminle : min 1 base ≤ 2 * base :=
    le_trans (min_le_right _ _) (by linarith)
  have hmin0 : (0 : ℚ) < min 1 base := lt_min (by norm_num) hpos
  cases op with
  | acquire t =>
    obtain ⟨hmin', hmax', hlo', hhi'⟩ := limiterInv_refill h t
    show limiterInv base (limiterAcquire s t)
    unfold limiterAcquire
    split
    · exact ⟨hmin', hmax', hlo', hhi'⟩
    · exact ⟨hmin', hmax', hlo', hhi'⟩
  | success t =>
    obtain ⟨hmin', hmax', hlo', hhi'⟩ := limiterInv_refill h t
    have hcur0 : (0 : ℚ) ≤ (limiterRefill s t).current_rate :=
      le_trans (le_of_lt hmin0) hlo'
    show limiterInv base (limiterReportSuccess s t)
    unfold limiterReportSuccess
    split
    · refine ⟨hmin', hmax', ?_, ?_⟩
      · show min 1 base ≤ min (limiterRefill s t).max_rate
          ((limiterRefill s t).current_rate * (11/10))
        exact le_min (le_trans hminle (le_of_eq hmax'.symm)) (le_trans hlo' (by linarith))
      · show min (limiterRefill s t).max_rate
          ((limiterRefill s t).current_rate * (11/10)) ≤ 2 * base
        exact le_trans (min_le_left _ _) (le_of_eq hmax')
    · exact ⟨hmin', hmax', hlo', hhi'⟩
  | throttled t =>
    obtain ⟨hmin, hmax, hlo, hhi⟩ := h
    have hcur0 : (0 : ℚ) ≤ s.current_rate := le_trans (le_of_lt hmin0) hlo
    show limiterInv base (limiterReportThrottled s t)
    unfold limiterReportThrottled
    refine ⟨hmin, hmax, ?_, ?_⟩
    · show min 1 base ≤ max s.min_rate (s.current_rate * (7/10))
      exact le_trans (le_of_eq hmin.symm) (le_max_left _ _)
    · show max s.min_rate (s.current_rate * (7/10)) ≤ 2 * base
      exact max_le (le_trans (le_of_eq hmin) hminle) (le_trans (by linarith) hhi)

theorem runLimiter_inv (rate : ℚ) (burst : Int) (t0 : ℚ) (ops : List LimiterOp) :
    limiterInv (max (1/10) rate) (runLimiter rate burst t0 ops) := by
  have hpos : (0 : ℚ) < max (1/10) rate := lt_of_lt_of_le (by norm_num) (le_max_left _ _)
  suffices h : ∀ (l : List LimiterOp) (s : Limiter), limiterInv (max (1/10) rate) s →
      limiterInv (max (1/10) rate) (l.foldl limiterStep s) by
    exact h ops _ (mkLimiter_inv rate burst t0)
  intro l
  induction l with
  | nil => intro s hs; exact hs
  | cons op rest ih => intro s hs; exact ih _ (limiterStep_inv hpos hs op)

/-- C6 (counterexample): the claim says `current_rate` starts at the
configured base rate, but the constructor clamps the base to
`max(0.1, rate)`: configuring `rate = 0.05` yields an initial
`current_rate` of `0.1`, not `0.05`. -/
theorem limiter_base_clamp_counterexample :
    (mkLimiter (1/20) 1 0).current_rate = 1/10 ∧ ((1 : ℚ)/10) ≠ 1/20 := by
  constructor
  · simp only [mkLimiter]
    rw [max_eq_left (by norm_num : (1/20 : ℚ) ≤ 1/10)]
  · norm_num

/-- C6 (amended): with `base := max(0.1, configured rate)`,
`current_rate` starts at `base` and after every sequence of acquire /
report_success / report_throttled operations stays within
`[min(1, base), 2·base]`; a `report_success` at time `t` multiplies the
rate by 1.10 (capped at `2·base`) exactly when at least 30 seconds have
passed since the last adjustment, and then resets the adjustment clock,
otherwise it leaves the rate and the clock unchanged; a
`report_throttled` multiplies the rate by 0.70 (floored at
`min(1, base)`) and always resets the adjustment clock. -/
theorem limiter_rate_invariant (rate : ℚ) (burst : Int) (t0 : ℚ) (ops : List LimiterOp) :
    (mkLimiter rate burst t0).current_rate = max (1/10) rate ∧
    min 1 (max (1/10) rate) ≤ (runLimiter rate burst t0 ops).current_rate ∧
    (runLimiter rate burst t0 ops).current_rate ≤ 2 * max (1/10) rate ∧
    (∀ t, (limiterStep (runLimiter rate burst t0 ops) (.success t)).current_rate =
      if 30 ≤ t - (runLimiter rate burst t0 ops).last_adjust then
        min (2 * max (1/10) rate) ((runLimiter rate burst t0 ops).current_rate * (11/10))
      else (runLimiter rate burst t0 ops).current_rate) ∧
    (∀ t, (limiterStep (runLimiter rate burst t0 ops) (.success t)).last_adjust =
      if 30 ≤ t - (runLimiter rate burst t0 ops).last_adjust then t
      else (runLimiter rate burst t0 ops).last_adjust) ∧
    (∀ t, (limiterStep (runLimiter rate burst t0 ops) (.throttled t)).current_rate =
        max (min 1 (max (1/10) rate))
          ((runLimiter rate burst t0 ops).current_rate * (7/10)) ∧
      (limiterStep (runLimiter rate burst t0 ops) (.throttled t)).last_adjust = t) := by
  obtain ⟨hmin, hmax, hlo, hhi⟩ := runLimiter_inv rate burst t0 ops
  refine ⟨rfl, hlo, hhi, ?_, ?_, ?_⟩
  · intro t
    obtain ⟨h1, _, h3, h4⟩ := limiterRefill_fields (runLimiter rate burst t0 ops) t
    show (limiterReportSuccess (runLimiter rate burst t0 ops) t).current_rate = _
    unfold limiterReportSuccess
    rw [h4]
    split
    · show min (limiterRefill (runLimiter rate burst t0 ops) t).max_rate
        ((limiterRefill (runLimiter rate burst t0 ops) t).current_rate * (11/10)) = _
      rw [h1, h3, hmax]
    · exact h1
  · intro t
    obtain ⟨_, _, _, h4⟩ := limiterRefill_fields (runLimiter rate burst t0 ops) t
    show (limiterReportSuccess (runLimiter rate burst t0 ops) t).last_adjust = _
    unfold limiterReportSuccess
    rw [h4]
    split
    · rfl
    · exact h4
  · intro t
    show (limiterReportThrottled (runLimiter rate burst t0 ops) t).current_rate = _ ∧
      (limiterReportThrottled (runLimiter rate burst t0 ops) t).last_adjust = t
    unfold limiterReportThrottled
    exact ⟨by rw [hmin], rfl⟩

/-- Witness for C6 at the pipeline's default limiter configuration. -/
theorem limiter_rate_invariant_witness :
    (mkLimiter 20 30 0).current_rate = max (1/10) 20 :=
  (limiter_rate_invariant 20 30 0 []).1

/-! ## Stop-threshold characterization (C3) -/

/-- `consecutive_page_failures` after processing `l` starting from `c`. -/
def consecFrom (c : Nat) (l : List PageOutcome) : Nat :=
  l.foldl stepCounter c

theorem runLoop_eq_some_iff (K : Nat) (hK : 1 ≤ K) :
    ∀ (l : List PageOutcome) (c n : Nat), c < K →
      (runLoop K c l = some n ↔
        0 < n ∧ n ≤ l.length ∧ consecFrom c (l.take n) = K ∧
        ∀ m, m < n → consecFrom c (l.take m) < K) := by
  intro l
  induction l with
  | nil =>
    intro c n hc
    constructor
    · intro h
      simp [runLoop] at h
    · rintro ⟨h1, h2, -, -⟩
      simp at h2
      omega
  | cons o rest ih =>
    intro c n hc
    have hmap : ∀ c', stepCounter c o = c' → c' < K →
        ((runLoop K c' rest).map (· + 1) = some n ↔
          0 < n ∧ n ≤ (o :: rest).length ∧ consecFrom c ((o :: rest).take n) = K ∧
          ∀ m, m < n → consecFrom c ((o :: rest).take m) < K) := by
      intro c' hstep hc'
      cases n with
      | zero =>
        constructor
        · intro h
          rw [Option.map_eq_some'] at h
          obtain ⟨a, -, ha⟩ := h
          exact (Nat.succ_ne_zero a ha).elim
        · rintro ⟨h1, -, -, -⟩
          exact (Nat.lt_irrefl 0 h1).elim
      | succ m =>
        rw [Option.map_eq_some']
        constructor
        · rintro ⟨a, hra, han⟩
          have ham : a = m := by omega
          rw [ham] at hra
          obtain ⟨h0, hlen, hKeq, hlt⟩ := (ih c' m hc').mp hra
          refine ⟨Nat.succ_pos m, ?_, ?_, ?_⟩
          · show m + 1 ≤ rest.length + 1
            exact Nat.succ_le_succ hlen
          · show consecFrom (stepCounter c o) (rest.take m) = K
            rw [hstep]
            exact hKeq
          · intro j hj
            cases j with
            | zero => exact hc
            | succ j' =>
              have hj' : j' < m := by omega
              show consecFrom (stepCounter c o) (rest.take j') < K
              rw [hstep]
              exact hlt j' hj'
        · rintro ⟨h0, hlen, hKeq, hlt⟩
          rw [List.length_cons] at hlen
          have hm0 : 0 < m := by
            rcases Nat.eq_zero_or_pos m with hm | hm
            · exfalso
              subst hm
              have h2 : consecFrom (stepCounter c o) (rest.take 0) = K := hKeq
              have h3 : stepCounter c o = K := h2
              rw [hstep] at h3
              omega
            · exact hm
          refine ⟨m, ?_, rfl⟩
          apply (ih c' m hc').mpr
          refine ⟨hm0, by omega, ?_, ?_⟩
          · have h2 : consecFrom (stepCounter c o) (rest.take m) = K := hKeq
            rw [hstep] at h2
            exact h2
          · intro j hj
            have h2 : consecFrom (stepCounter c o) (rest.take j) < K :=
              hlt (j + 1) (by omega)
            rw [hstep] at h2
            exact h2
    cases o with
    | skip =>
      rw [show runLoop K c (.skip :: rest) = (runLoop K c rest).map (· + 1) from rfl]
      exact hmap c rfl hc
    | success =>
      rw [show runLoop K c (.success :: rest) = (runLoop K 0 rest).map (· + 1) from rfl]
      exact hmap 0 rfl (by omega)
    | failure =>
      by_cases hKc : K ≤ c + 1
      · have hrl : runLoop K c (.failure :: rest) = some 1 := by
          simp [runLoop, hKc]
        rw [hrl]
        constructor
        · intro h
          have hn1 : 1 = n := by simpa using h
          subst hn1
          refine ⟨by omega, by simp, ?_, ?_⟩
          · show c + 1 = K
            omega
          · intro m hm
            have hm0 : m = 0 := by omega
            subst hm0
            exact hc
        · rintro ⟨h0, hlen, hKeq, hlt⟩
          have hn1 : n = 1 := by
            by_contra hne
            have h2 : 2 ≤ n := by omega
            have h3 : consecFrom c ((PageOutcome.failure :: rest).take 1) < K :=
              hlt 1 (by omega)
            have h4 : c + 1 < K := h3
            omega
          subst hn1
          rfl
      · have hrl : runLoop K c (.failure :: rest) = (runLoop K (c + 1) rest).map (· + 1) := by
          simp [runLoop, hKc]
        rw [hrl]
        exact hmap (c + 1) rfl (by omega)

/-- C3: with `end_num` unset and threshold `K ≥ 1`, the `run` loop halts
precisely after consuming `n` pages such that the consecutive-failure
counter — incremented by a failed page, reset by a successful page, and
left unchanged by a resume-mode skip — reaches `K` for the first time at
page `n`: exactly `K` failures (interleaved only with skips) follow the
last success in the processed prefix. -/
theorem run_halts_at_kth_consecutive_failure (K n : Nat) (hK : 1 ≤ K)
    (outcomes : List PageOutcome) :
    runLoop K 0 outcomes = some n ↔
      0 < n ∧ n ≤ outcomes.length ∧ consecFail (outcomes.take n) = K ∧
      ∀ m, m < n → consecFail (outcomes.take m) < K :=
  runLoop_eq_some_iff K hK outcomes 0 n (by omega)

/-- Witness for C3: with `K = 2`, the trace
fail, success, fail, skip, fail halts exactly after the fifth page. -/
theorem run_halts_at_kth_consecutive_failure_witness :
    runLoop 2 0 [.failure, .success, .failure, .skip, .failure] = some 5 :=
  (run_halts_at_kth_consecutive_failure 2 5 (by norm_num)
    [.failure, .success, .failure, .skip, .failure]).mpr (by decide)

/-! ## Download-loop lemmas (C4) -/

theorem downloadFrom_used_le (now : String) (retries : Nat) :
    ∀ (l : List AttemptOutcome) (attempt : Nat) (ls : Option Int) (els : Option String),
      (downloadFrom now retries attempt ls els l).2 ≤ l.length := by
  intro l
  induction l with
  | nil =>
    intro attempt ls els
    exact Nat.le_refl 0
  | cons o rest ih =>
    intro attempt ls els
    cases o with
    | success st ct sz sh =>
      show (1 : Nat) ≤ rest.length + 1
      omega
    | failure stOpt err =>
      cases stOpt with
      | some s =>
        have h := ih (attempt + 1) (some s) (some err)
        show (downloadFrom now retries (attempt + 1) (some s) (some err) rest).2 + 1 ≤
          rest.length + 1
        omega
      | none =>
        have h := ih (attempt + 1) ls (some err)
        show (downloadFrom now retries (attempt + 1) ls (some err) rest).2 + 1 ≤
          rest.length + 1
        omega

theorem downloadFrom_all_fail (now : String) (retries : Nat) :
    ∀ (l : List AttemptOutcome) (attempt : Nat) (ls : Option Int) (els : Option String),
      (∀ o ∈ l, o.isFailure = true) →
      downloadFrom now retries attempt ls els l =
        (⟨false, retries, l.foldl statusStep ls, none, none, none, none,
          l.foldl errorStep els⟩, l.length) := by
  intro l
  induction l with
  | nil =>
    intro attempt ls els _
    rfl
  | cons o rest ih =>
    intro attempt ls els hall
    cases o with
    | success st ct sz sh =>
      exact absurd (hall _ (List.mem_cons_self _ _)) (by simp [AttemptOutcome.isFailure])
    | failure stOpt err =>
      have hrest : ∀ o ∈ rest, o.isFailure = true :=
        fun o ho => hall o (List.mem_cons_of_mem _ ho)
      cases stOpt with
      | some s =>
        have hstep : downloadFrom now retries attempt ls els (.failure (some s) err :: rest) =
            ((downloadFrom now retries (attempt + 1) (some s) (some err) rest).1,
             (downloadFrom now retries (attempt + 1) (some s) (some err) rest).2 + 1) := rfl
        rw [hstep, ih (attempt + 1) (some s) (some err) hrest]
        rfl
      | none =>
        have hstep : downloadFrom now retries attempt ls els (.failure none err :: rest) =
            ((downloadFrom now retries (attempt + 1) ls (some err) rest).1,
             (downloadFrom now retries (attempt + 1) ls (some err) rest).2 + 1) := rfl
        rw [hstep, ih (attempt + 1) ls (some err) hrest]
        rfl

theorem lastError_fold_isSome :
    ∀ (l : List AttemptOutcome), ∀ (acc : Option String),
      (∀ o ∈ l, o.isFailure = true) → l ≠ [] →
      (l.foldl errorStep acc).isSome = true := by
  intro l
  induction l with
  | nil =>
    intro acc _ hne
    exact absurd rfl hne
  | cons o rest ih =>
    intro acc hall _
    cases o with
    | success st ct sz sh =>
      exact absurd (hall _ (List.mem_cons_self _ _)) (by simp [AttemptOutcome.isFailure])
    | failure stOpt err =>
      show (rest.foldl errorStep (some err)).isSome = true
      cases rest with
      | nil => rfl
      | cons r rs =>
        exact ih (some err) (fun x hx => hall x (List.mem_cons_of_mem _ hx)) (by simp)

theorem downloadFrom_first_success (now : String) (retries : Nat) :
    ∀ (l : List AttemptOutcome) (i attempt : Nat) (ls : Option Int) (els : Option String)
      (st : Int) (ct : Option String) (sz : Nat) (sh : String),
      (∀ o ∈ l.take i, o.isFailure = true) →
      l[i]? = some (.success st ct sz sh) →
      downloadFrom now retries attempt ls els l =
        (⟨true, attempt + i - 1, some st, ct, some sz, some sh, some now, none⟩, i + 1) := by
  intro l
  induction l with
  | nil =>
    intro i attempt ls els st ct sz sh _ hget
    simp at hget
  | cons o rest ih =>
    intro i attempt ls els st ct sz sh hfail hget
    cases i with
    | zero =>
      rw [List.getElem?_cons_zero] at hget
      have ho : o = .success st ct sz sh := by simpa using hget
      subst ho
      rfl
    | succ j =>
      rw [List.getElem?_cons_succ] at hget
      have ho : o.isFailure = true := hfail o (List.mem_cons_self _ _)
      cases o with
      | success _ _ _ _ => simp [AttemptOutcome.isFailure] at ho
      | failure stOpt err =>
        have hfail' : ∀ x ∈ rest.take j, x.isFailure = true :=
          fun x hx => hfail x (List.mem_cons_of_mem _ hx)
        have harith : attempt + 1 + j = attempt + (j + 1) := by omega
        cases stOpt with
        | some s =>
          have hstep : downloadFrom now retries attempt ls els
              (.failure (some s) err :: rest) =
              ((downloadFrom now retries (attempt + 1) (some s) (some err) rest).1,
               (downloadFrom now retries (attempt + 1) (some s) (some err) rest).2 + 1) := rfl
          rw [hstep, ih j (attempt + 1) (some s) (some err) st ct sz sh hfail' hget, harith]
        | none =>
          have hstep : downloadFrom now retries attempt ls els
              (.failure none err :: rest) =
              ((downloadFrom now retries (attempt + 1) ls (some err) rest).1,
               (downloadFrom now retries (attempt + 1) ls (some err) rest).2 + 1) := rfl
          rw [hstep, ih j (attempt + 1) ls (some err) st ct sz sh hfail' hget, harith]

/-- C4: with `attempts = retries + 1` outcomes available, `download`
never consumes more than `retries + 1` attempts; when every attempt
fails, it returns `ok = false`, `retries_used = retries`, the last
observed HTTP status (none when no attempt exposed one), a populated
error and no content fields; when the first success is the `i`-th
outcome (after `i` failures), it returns `ok = true` with that attempt's
status, content type, size and sha256, `downloaded_at` set, and
`retries_used = i`, consuming only `i + 1` attempts. -/
theorem download_contract (now : String) (retries : Nat) (outs : List AttemptOutcome)
    (hlen : outs.length = retries + 1) :
    (download now retries outs).2 ≤ retries + 1 ∧
    ((∀ o ∈ outs, o.isFailure = true) →
      (download now retries outs).1 =
        ⟨false, retries, lastObservedStatus outs, none, none, none, none, lastErrorOf outs⟩ ∧
      (lastErrorOf outs).isSome = true) ∧
    (∀ (i : Nat) (st : Int) (ct : Option String) (sz : Nat) (sh : String),
      (∀ o ∈ outs.take i, o.isFailure = true) →
      outs[i]? = some (.success st ct sz sh) →
      download now retries outs =
        (⟨true, i, some st, ct, some sz, some sh, some now, none⟩, i + 1)) := by
  have htake : outs.take (retries + 1) = outs := by
    rw [← hlen]
    exact List.take_length outs
  unfold download
  rw [htake]
  refine ⟨?_, ?_, ?_⟩
  · have h := downloadFrom_used_le now retries outs 1 none none
    rw [hlen] at h
    exact h
  · intro hall
    rw [downloadFrom_all_fail now retries outs 1 none none hall]
    exact ⟨rfl, lastError_fold_isSome outs none hall (by intro hnil; rw [hnil] at hlen; simp at hlen)⟩
  · intro i st ct sz sh hf hg
    have h := downloadFrom_first_success now retries outs i 1 none none st ct sz sh hf hg
    rw [show 1 + i - 1 = i from by omega] at h
    exact h

/-- Witness for C4 with one retry and two failing attempts. -/
theorem download_contract_witness :
    (download "t0" 1 [.failure (some 404) "e1", .failure none "e2"]).2 ≤ 2 :=
  (download_contract "t0" 1 [.failure (some 404) "e1", .failure none "e2"] rfl).1

/-! ## Crash-recovery frame lemmas (C2) -/

theorem jobPageIds_map_preserved (job : String) (f : PageRow → PageRow)
    (hid : ∀ p, (f p).id = p.id) (hjob : ∀ p, (f p).job_id = p.job_id)
    (pages : List PageRow) :
    jobPageIds (pages.map f) job = jobPageIds pages job := by
  unfold jobPageIds
  rw [List.filter_map, List.map_map]
  have h1 : pages.filter ((fun p => decide (p.job_id = job)) ∘ f) =
      pages.filter (fun p => decide (p.job_id = job)) :=
    List.filter_congr (fun x _ => by simp [Function.comp, hjob x])
  rw [h1]
  exact List.map_congr_left (fun x _ => by simp [Function.comp, hid x])

theorem resetPagesFn_id (now job_id : String) (p : PageRow) :
    (resetPagesFn now job_id p).id = p.id := by
  unfold resetPagesFn
  split <;> rfl

theorem resetPagesFn_job (now job_id : String) (p : PageRow) :
    (resetPagesFn now job_id p).job_id = p.job_id := by
  unfold resetPagesFn
  split <;> rfl

/-- The page-id set of a job is unchanged by the pages `UPDATE`, so the
images subquery sees the same set as before. -/
theorem jobPageIds_after_reset (now job_id : String) (db : StateDB) :
    jobPageIds (db.pages.map (resetPagesFn now job_id)) job_id = jobPageIds db.pages job_id :=
  jobPageIds_map_preserved job_id _ (resetPagesFn_id now job_id)
    (resetPagesFn_job now job_id) db.pages

/-- C2: `reset_running_to_pending` maps each page row of the job whose
status is `running` to the same row with only `status := "pending"` and
`updated_at := now` changed, and similarly each image row lying under a
page of the job, leaving every other row (other statuses, other jobs)
bit-for-bit unchanged; afterwards no page and no image under the job has
status `running`. -/
theorem reset_running_frame (now job_id : String) (db : StateDB) :
    List.Forall₂ (fun p p' =>
      p' = if p.job_id = job_id ∧ p.status = "running"
           then { p with status := "pending", updated_at := now } else p)
      db.pages (reset_running_to_pending now job_id db).pages ∧
    List.Forall₂ (fun i i' =>
      i' = if i.page_id ∈ jobPageIds db.pages job_id ∧ i.status = "running"
           then { i with status := "pending", updated_at := now } else i)
      db.images (reset_running_to_pending now job_id db).images ∧
    (∀ p ∈ (reset_running_to_pending now job_id db).pages,
      p.job_id = job_id → p.status ≠ "running") ∧
    (∀ i ∈ (reset_running_to_pending now job_id db).images,
      i.page_id ∈ jobPageIds (reset_running_to_pending now job_id db).pages job_id →
      i.status ≠ "running") := by
  refine ⟨?_, ?_, ?_, ?_⟩
  · show List.Forall₂ _ db.pages (db.pages.map (resetPagesFn now job_id))
    rw [List.forall₂_map_right_iff]
    rw [List.forall₂_same]
    intro p _
    rfl
  · show List.Forall₂ _ db.images (db.images.map (resetImagesFn now _))
    rw [List.forall₂_map_right_iff]
    rw [List.forall₂_same]
    intro i _
    show resetImagesFn now (jobPageIds (db.pages.map (resetPagesFn now job_id)) job_id) i = _
    rw [jobPageIds_after_reset]
    rfl
  · intro p hp hjob
    obtain ⟨p0, _, hp0⟩ := List.mem_map.mp hp
    subst hp0
    unfold resetPagesFn
    unfold resetPagesFn at hjob
    split
    · intro hst
      have h2 : ("pending" : String) = "running" := hst
      exact absurd h2 (by decide)
    · rename_i hcond
      split at hjob
      · rename_i hc2
        exact absurd hc2 hcond
      · intro hst
        exact hcond ⟨hjob, hst⟩
  · intro i hi hmem
    obtain ⟨i0, _, hi0⟩ := List.mem_map.mp hi
    subst hi0
    unfold resetImagesFn
    unfold resetImagesFn at hmem
    split
    · intro hst
      have h2 : ("pending" : String) = "running" := hst
      exact absurd h2 (by decide)
    · rename_i hcond
      split at hmem
      · rename_i hc2
        exact absurd hc2 hcond
      · intro hst
        exact hcond ⟨hmem, hst⟩

/-- Witness for C2 on a one-page, one-image database. -/
theorem reset_running_frame_witness :
    List.Forall₂ (fun p p' =>
      p' = if p.job_id = "j" ∧ p.status = "running"
           then { p with status := "pending", updated_at := "t1" } else p)
      (StateDB.pages ⟨[⟨1, "j", 3, "u", "s", "running", 0, 0, none, "t0", "t0", none⟩], []⟩)
      (reset_running_to_pending "t1" "j"
        ⟨[⟨1, "j", 3, "u", "s", "running", 0, 0, none, "t0", "t0", none⟩], []⟩).pages :=
  (reset_running_frame "t1" "j"
    ⟨[⟨1, "j", 3, "u", "s", "running", 0, 0, none, "t0", "t0", none⟩], []⟩).1

/-! ## Canonical-JSON sorting lemmas (C1) -/

theorem pairwise_combine {α : Type} {R S T : α → α → Prop}
    (himp : ∀ a b, R a b → S a b → T a b) :
    ∀ {l : List α}, l.Pairwise R → l.Pairwise S → l.Pairwise T := by
  intro l
  induction l with
  | nil =>
    intro _ _
    exact List.Pairwise.nil
  | cons a t ih =>
    intro hR hS
    rcases List.pairwise_cons.mp hR with ⟨hRa, hRt⟩
    rcases List.pairwise_cons.mp hS with ⟨hSa, hSt⟩
    exact List.pairwise_cons.mpr ⟨fun b hb => himp a b (hRa b hb) (hSa b hb), ih hRt hSt⟩

theorem charListLe_total : ∀ l1 l2 : List Char,
    charListLe l1 l2 = true ∨ charListLe l2 l1 = true := by
  intro l1
  induction l1 with
  | nil =>
    intro l2
    left
    rfl
  | cons a as ih =>
    intro l2
    cases l2 with
    | nil =>
      right
      rfl
    | cons b bs =>
      by_cases hab : a.toNat < b.toNat
      · left
        simp [charListLe, hab]
      · by_cases hba : b.toNat < a.toNat
        · right
          simp [charListLe, hba]
        · rcases ih bs with h | h
          · left
            simp [charListLe, hab, hba, h]
          · right
            simp [charListLe, hab, hba, h]

theorem charListLe_trans : ∀ l1 l2 l3 : List Char,
    charListLe l1 l2 = true → charListLe l2 l3 = true → charListLe l1 l3 = true := by
  intro l1
  induction l1 with
  | nil =>
    intro l2 l3 _ _
    rfl
  | cons a as ih =>
    intro l2 l3 h12 h23
    cases l2 with
    | nil => simp [charListLe] at h12
    | cons b bs =>
      cases l3 with
      | nil => simp [charListLe] at h23
      | cons c cs =>
        simp only [charListLe] at h12 h23 ⊢
        split_ifs at h12 h23 ⊢ <;>
          first
          | rfl
          | omega
          | exact ih bs cs h12 h23

theorem charListLe_antisymm : ∀ l1 l2 : List Char,
    charListLe l1 l2 = true → charListLe l2 l1 = true → l1 = l2 := by
  intro l1
  induction l1 with
  | nil =>
    intro l2 _ h21
    cases l2 with
    | nil => rfl
    | cons b bs => simp [charListLe] at h21
  | cons a as ih =>
    intro l2 h12 h21
    cases l2 with
    | nil => simp [charListLe] at h12
    | cons b bs =>
      simp only [charListLe] at h12 h21
      split_ifs at h12 h21 <;> try omega
      rename_i h1 h2
      have hab : a = b := by
        have hn : a.toNat = b.toNat := by omega
        have hv : a.val.toNat = b.val.toNat := hn
        exact Char.ext (UInt32.ext hv)
      rw [hab, ih bs h12 h21]

instance : IsTotal (String × JVal) keyLe := ⟨fun a b => charListLe_total a.1.toList b.1.toList⟩

instance : IsTrans (String × JVal) keyLe :=
  ⟨fun _ _ _ h1 h2 => charListLe_trans _ _ _ h1 h2⟩

/-- Key order together with key distinctness: an antisymmetric relation
under which a sorted, key-distinct list is unique. -/
def keyStrict (a b : String × JVal) : Prop := keyLe a b ∧ a.1 ≠ b.1

instance : IsAntisymm (String × JVal) keyStrict :=
  ⟨fun a b h1 h2 => by
    have heq : a.1.toList = b.1.toList := charListLe_antisymm _ _ h1.1 h2.1
    have : a.1 = b.1 := by
      have := congrArg List.asString heq
      rwa [String.asString_toList, String.asString_toList] at this
    exact absurd this h1.2⟩

theorem sortEntries_sorted_strict (l : List (String × JVal))
    (hnd : (l.map Prod.fst).Nodup) : (sortEntries l).Sorted keyStrict := by
  have hs : (sortEntries l).Sorted keyLe := List.sorted_insertionSort keyLe l
  have hperm : (sortEntries l).Perm l := List.perm_insertionSort keyLe l
  have hnd2 : ((sortEntries l).map Prod.fst).Nodup :=
    (List.Perm.nodup_iff (List.Perm.map Prod.fst hperm)).mpr hnd
  have hne : (sortEntries l).Pairwise (fun a b => a.1 ≠ b.1) :=
    (List.pairwise_map).mp hnd2
  exact pairwise_combine (fun a b hle hna => ⟨hle, hna⟩) hs hne

theorem sortEntries_eq_of_perm {l l' : List (String × JVal)}
    (hperm : l.Perm l') (hnd : (l'.map Prod.fst).Nodup) :
    sortEntries l = sortEntries l' := by
  have hnd1 : (l.map Prod.fst).Nodup := (List.Perm.nodup_iff (hperm.map Prod.fst)).mpr hnd
  refine List.eq_of_perm_of_sorted (r := keyStrict) ?_ ?_ ?_
  · exact (List.perm_insertionSort keyLe l).trans
      (hperm.trans (List.perm_insertionSort keyLe l').symm)
  · exact sortEntries_sorted_strict l hnd1
  · exact sortEntries_sorted_strict l' hnd

theorem canonicalJson_perm {l l' : List (String × JVal)} (hperm : l.Perm l')
    (hnd : (l'.map Prod.fst).Nodup) : canonicalJson l = canonicalJson l' := by
  unfold canonicalJson
  rw [sortEntries_eq_of_perm hperm hnd]

/-- C1: the job id depends only on the seven identity fields — two
configurations agreeing on them get the same id whatever their other
fields — and equals `job_` followed by the first 16 hex characters of
the SHA-1 of the sorted-keys canonical JSON of the identity entries, in
whatever order those entries are supplied. -/
theorem compute_job_id_identity (ca cb : RunConfig) (l : List (String × JVal))
    (h1 : ca.url_template = cb.url_template)
    (h2 : ca.selector = cb.selector)
    (h3 : ca.output_dir = cb.output_dir)
    (h4 : ca.engine = cb.engine)
    (h5 : ca.sequence_count_selector = cb.sequence_count_selector)
    (h6 : ca.sequence_require_upper_bound = cb.sequence_require_upper_bound)
    (h7 : ca.sequence_probe_after_upper_bound = cb.sequence_probe_after_upper_bound)
    (hperm : l.Perm (as_job_identity cb)) :
    compute_job_id ca = compute_job_id cb ∧
    compute_job_id ca = "job_" ++ (sha1Hex (strBytes (canonicalJson l))).take 16 := by
  have hid : as_job_identity ca = as_job_identity cb := by
    unfold as_job_identity
    rw [h1, h2, h3, h4, h5, h6, h7]
  have hnd : ((as_job_identity cb).map Prod.fst).Nodup := by
    show List.Nodup ["url_template", "selector", "output_dir", "engine",
      "sequence_count_selector", "sequence_require_upper_bound",
      "sequence_probe_after_upper_bound"]
    decide
  have hcanon : canonicalJson l = canonicalJson (as_job_identity cb) :=
    canonicalJson_perm hperm hnd
  constructor
  · unfold compute_job_id
    rw [hid]
  · unfold compute_job_id
    rw [hid, hcanon]

/-- A configuration with everything defaulted except the template. -/
def exampleConfigA : RunConfig :=
  { url_template := "https://e.test/g/{num}.html"
    start_num := 0 }

/-- The same identity fields as `exampleConfigA` but different tunables. -/
def exampleConfigB : RunConfig :=
  { url_template := "https://e.test/g/{num}.html"
    start_num := 5
    resume := false
    image_retries := 9 }

/-- Witness for C1: two configurations differing in `start_num`,
`resume` and `image_retries` share a job id. -/
theorem compute_job_id_identity_witness :
    compute_job_id exampleConfigA = compute_job_id exampleConfigB :=
  (compute_job_id_identity exampleConfigA exampleConfigB
    (as_job_identity exampleConfigB).reverse
    rfl rfl rfl rfl rfl rfl rfl (List.reverse_perm _)).1

set_option maxRecDepth 40000 in
/-- The SHA-1 model matches the FIPS 180 test vector for `"abc"`. -/
theorem sha1Hex_abc :
    sha1Hex (strBytes "abc") = "a9993e364706816aba3e25717850c26c9cd0d89d" := by rfl

set_option maxRecDepth 40000 in
/-- The SHA-1 model matches the digest of the empty message. -/
theorem sha1Hex_empty :
    sha1Hex [] = "da39a3ee5e6b4b0d3255bfef95601890afd80709" := by rfl

set_option maxRecDepth 100000 in
/-- End-to-end job id on a concrete configuration, matching
`hashlib.sha1(json.dumps(..., sort_keys=True).encode()).hexdigest()[:16]`. -/
theorem compute_job_id_concrete :
    compute_job_id exampleConfigA = "job_8ab68200eba15e5e" := by rfl

end ImageHarvester
